import Mathlib

/-!
Shallow embedding of the xv6-riscv write-ahead log (kernel/log.c) and proofs of
the logging subsystem's correctness properties: reservation, absorption,
panic conditions, commit write ordering, recovery idempotence, pin/unpin
balance, header framing, and crash-point atomicity.

The disk is modelled as the structured header block at address `start` plus a
map from block numbers to abstract block contents; per the shared-resource
policy the log region is written only by this component, and home blocks live
outside it.  Disk writes (bwrite) are recorded as an explicit event trace so
that a crash can be injected after any prefix of the writes.  panic is
modelled as Option.none.  The buffer cache is a map from home block numbers
to their current cached contents; logged buffers are pinned, so a cache read
of a logged block at commit time hits and returns exactly that map.
-/

namespace XvLog

/-- MAXOPBLOCKS from param.h (the file is not in the repository slice); the
value is the one the spec fixes in section 8. -/
def MAXOPBLOCKS : Nat := 10

/-- LOGSIZE from param.h (the file is not in the repository slice); the value
is the one the spec fixes in section 8. -/
def LOGSIZE : Nat := 30

/-- struct logheader (kernel/log.c:35): the count n and the array of home
block numbers.  The list carries the full LOGSIZE-long array; only the first
n entries are meaningful. -/
structure LogHeader where
  n : Nat
  block : List Nat
deriving Repr, DecidableEq

/-- struct log without the spinlock (kernel/log.c:40). outstanding is an int
in C and may be decremented, so it is an Int here. -/
structure LogSt where
  start : Nat
  size : Nat
  dev : Nat
  outstanding : Int
  committing : Bool
  lh : LogHeader
deriving Repr, DecidableEq

/-- On-disk contents of the header block: the logheader fields plus the
remaining bytes of the block, which the code never writes. -/
structure HeaderBlk where
  n : Nat
  block : List Nat
  rest : Nat
deriving Repr, DecidableEq

/-- The disk: the header block at address `start`, and the contents of every
other block, addressed by absolute block number.  Contents of a non-header
block are abstracted to a single Nat. -/
structure Disk where
  hdr : HeaderBlk
  data : Nat → Nat

/-- One disk write (bwrite): either a write of a data/log block or a write of
the header block. -/
inductive WEvent where
  | wdata (addr : Nat) (val : Nat)
  | whead (h : HeaderBlk)
deriving Repr, DecidableEq

/-- Address written by a data-block event. -/
def wtarget : WEvent → Option Nat
  | .wdata a _ => some a
  | .whead _ => none

/-- Whether an event is a data-block write. -/
def isData : WEvent → Bool
  | .wdata _ _ => true
  | .whead _ => false

/-- Apply one write event to the disk. -/
def applyEvent (d : Disk) (e : WEvent) : Disk :=
  match e with
  | .wdata a v => ⟨d.hdr, fun x => if x = a then v else d.data x⟩
  | .whead h => ⟨h, d.data⟩

/-- Apply a sequence of write events to the disk, in order. -/
def applyEvents (d : Disk) (es : List WEvent) : Disk :=
  es.foldl applyEvent d

/-- Overwrite the first n entries of dst with those of src, keeping the rest
of dst: the effect of the entry-copy loops in read_head and write_head. -/
def copyFirst (n : Nat) (src dst : List Nat) : List Nat :=
  src.take n ++ dst.drop n

/-- read_head (kernel/log.c:82): copy n and the first n block numbers from
the on-disk header into the in-memory header; the in-memory entries beyond n
keep their previous (stale) values. -/
def read_head (d : Disk) (lhprev : LogHeader) : LogHeader :=
  ⟨d.hdr.n, copyFirst d.hdr.n d.hdr.block lhprev.block⟩

/-- write_head (kernel/log.c:96): read the header block, overwrite n and the
first n entries from the in-memory header, and write it back.  Returns the
new disk and the single write event. -/
def write_head (lhn : Nat) (lhblock : List Nat) (d : Disk) : Disk × WEvent :=
  let h : HeaderBlk := ⟨lhn, copyFirst lhn lhblock d.hdr.block, d.hdr.rest⟩
  (applyEvent d (.whead h), .whead h)

/-- Result of the install_trans loop: final disk, write trace, and the list
of home blocks unpinned (bunpin calls), in order. -/
structure InstRes where
  disk : Disk
  trace : List WEvent
  unpins : List Nat

/-- install_trans loop (kernel/log.c:66) starting at index tail with cnt
iterations left: read log slot start+tail+1, write its contents to home block
block[tail], and bunpin that home block unless recovering. -/
def installTransFrom (recovering : Bool) (start : Nat) (block : List Nat) :
    Nat → Nat → Disk → InstRes
  | _, 0, d => ⟨d, [], []⟩
  | tail, cnt+1, d =>
    let v := d.data (start + tail + 1)
    let dst := block.getD tail 0
    let d1 := applyEvent d (.wdata dst v)
    let r := installTransFrom recovering start block (tail+1) cnt d1
    ⟨r.disk, .wdata dst v :: r.trace, (if recovering then [] else [dst]) ++ r.unpins⟩

/-- install_trans (kernel/log.c:66): run the loop over all n logged blocks. -/
def install_trans (recovering : Bool) (start : Nat) (block : List Nat)
    (n : Nat) (d : Disk) : InstRes :=
  installTransFrom recovering start block 0 n d

/-- write_log loop (kernel/log.c:164) starting at index tail: read home block
block[tail] from the cache and write its contents to log slot start+tail+1.
Logged buffers are pinned, so the cache read returns the cache map's value. -/
def writeLogFrom (start : Nat) (block : List Nat) (cache : Nat → Nat) :
    Nat → Nat → Disk → Disk × List WEvent
  | _, 0, d => (d, [])
  | tail, cnt+1, d =>
    let e := WEvent.wdata (start + tail + 1) (cache (block.getD tail 0))
    let d1 := applyEvent d e
    let r := writeLogFrom start block cache (tail+1) cnt d1
    (r.1, e :: r.2)

/-- write_log (kernel/log.c:164). -/
def write_log (start : Nat) (block : List Nat) (n : Nat) (cache : Nat → Nat)
    (d : Disk) : Disk × List WEvent :=
  writeLogFrom start block cache 0 n d

/-- Result of commit: the new in-memory log state, the final disk, the write
trace, and the unpinned home blocks. -/
structure CommitRes where
  st : LogSt
  disk : Disk
  trace : List WEvent
  unpins : List Nat

/-- commit (kernel/log.c:177): if lh.n > 0, write_log, write_head (the commit
point), install_trans(0), lh.n = 0, write_head again; otherwise nothing. -/
def commit (st : LogSt) (cache : Nat → Nat) (d : Disk) : CommitRes :=
  if 0 < st.lh.n then
    let wl := write_log st.start st.lh.block st.lh.n cache d
    let wh := write_head st.lh.n st.lh.block wl.1
    let ins := install_trans false st.start st.lh.block st.lh.n wh.1
    let wh2 := write_head 0 st.lh.block ins.disk
    ⟨{st with lh := ⟨0, st.lh.block⟩}, wh2.1,
      wl.2 ++ wh.2 :: (ins.trace ++ [wh2.2]), ins.unpins⟩
  else ⟨st, d, [], []⟩

/-- Result of recover_from_log: final disk, write trace, unpins. -/
structure RecRes where
  disk : Disk
  trace : List WEvent
  unpins : List Nat

/-- recover_from_log (kernel/log.c:108): read_head, install_trans(1),
lh.n = 0, write_head.  lhprev is the in-memory header before the call; its
entries beyond the on-disk n survive read_head as stale in-memory values. -/
def recover_from_log (start : Nat) (lhprev : LogHeader) (d : Disk) :
    LogHeader × RecRes :=
  let lh1 := read_head d lhprev
  let ins := install_trans true start lh1.block lh1.n d
  let lh2 : LogHeader := ⟨0, lh1.block⟩
  let wh := write_head 0 lh2.block ins.disk
  (lh2, ⟨wh.1, ins.trace ++ [wh.2], ins.unpins⟩)

/-- begin_op (kernel/log.c:116): one pass of the admission loop.  none means
the caller sleeps and retries; some is the successful admission. -/
def begin_op (st : LogSt) : Option LogSt :=
  if st.committing then none
  else if (st.lh.n : Int) + (st.outstanding + 1) * (MAXOPBLOCKS : Int) > (LOGSIZE : Int) then none
  else some {st with outstanding := st.outstanding + 1}

/-- The linear scan in log_write (kernel/log.c:205): index of the first
occurrence of bno, or the length of the scanned list if absent. -/
def logFind (bno : Nat) : List Nat → Nat
  | [] => 0
  | x :: xs => if x = bno then 0 else logFind bno xs + 1

/-- log_write (kernel/log.c:196): none models panic; on success the Bool
records whether bpin was called (true exactly when the block was new). -/
def log_write (st : LogSt) (bno : Nat) : Option (LogSt × Bool) :=
  if LOGSIZE ≤ st.lh.n ∨ st.size - 1 ≤ st.lh.n then none
  else if st.outstanding < 1 then none
  else
    let i := logFind bno (st.lh.block.take st.lh.n)
    let blk := st.lh.block.set i bno
    if i = st.lh.n then some ({st with lh := ⟨st.lh.n + 1, blk⟩}, true)
    else some ({st with lh := ⟨st.lh.n, blk⟩}, false)

/-- Run a sequence of log_write calls, collecting the blocks that were pinned
in order; none if any call panics. -/
def runLogWrites (st : LogSt) : List Nat → Option (LogSt × List Nat)
  | [] => some (st, [])
  | b :: bs =>
    match log_write st b with
    | none => none
    | some (st1, p) =>
      match runLogWrites st1 bs with
      | none => none
      | some (st2, pins) => some (st2, (if p then [b] else []) ++ pins)

/-- Result of end_op: new state, disk, trace, unpins, whether this call ran
commit, and how many wakeup broadcasts it issued. -/
structure EndRes where
  st : LogSt
  disk : Disk
  trace : List WEvent
  unpins : List Nat
  did_commit : Bool
  wakeups : Nat

/-- end_op (kernel/log.c:134): decrement outstanding; panic (none) if
committing; if the count reaches 0, set committing, run commit without the
lock, clear committing and wake sleepers; otherwise wake sleepers. -/
def end_op (st : LogSt) (cache : Nat → Nat) (d : Disk) : Option EndRes :=
  let o := st.outstanding - 1
  if st.committing then none
  else if o = 0 then
    let c := commit ⟨st.start, st.size, st.dev, o, true, st.lh⟩ cache d
    some ⟨⟨c.st.start, c.st.size, c.st.dev, c.st.outstanding, false, c.st.lh⟩,
      c.disk, c.trace, c.unpins, true, 1⟩
  else some ⟨{st with outstanding := o}, d, [], [], false, 1⟩

/-! Concrete inputs used by the witness theorems: LOGSIZE-long arrays, a log
region of 31 blocks starting at block 2 (spec section 8), home block 100. -/

/-- Concrete cache contents for witnesses. -/
def cacheW : Nat → Nat := fun _ => 5

/-- Concrete initial disk for witnesses: empty on-disk header. -/
def diskW : Disk := ⟨⟨0, List.replicate 30 0, 0⟩, fun _ => 7⟩

/-- Concrete in-memory header for witnesses. -/
def lhW : LogHeader := ⟨0, List.replicate 30 0⟩

/-- Concrete pre-admission state for the begin_op witness. -/
def beginW : LogSt := ⟨2, 31, 0, 0, false, ⟨0, List.replicate 30 0⟩⟩

/-- The state begin_op returns on beginW. -/
def beginWres : LogSt := ⟨2, 31, 0, 1, false, ⟨0, List.replicate 30 0⟩⟩

/-- Concrete committing state with an empty transaction. -/
def stEmptyW : LogSt := ⟨2, 31, 0, 0, true, ⟨0, List.replicate 30 0⟩⟩

/-- Concrete state with two outstanding operations, for the end_op witness. -/
def stEndW : LogSt := ⟨2, 31, 0, 2, false, ⟨0, List.replicate 30 0⟩⟩

/-- Concrete state outside any transaction, for the log_write panic witness. -/
def stPanicW : LogSt := ⟨2, 31, 0, 0, false, ⟨0, List.replicate 30 0⟩⟩

/-- Concrete in-transaction state with an empty header, for log_write
witnesses. -/
def stTxnW : LogSt := ⟨2, 31, 0, 1, false, ⟨0, List.replicate 30 0⟩⟩

/-- Concrete block array holding home block 100 in slot 0. -/
def blkW : List Nat := 100 :: List.replicate 29 0

/-- Concrete committing state with one logged block, for commit witnesses. -/
def stC1W : LogSt := ⟨2, 31, 0, 0, true, ⟨1, blkW⟩⟩

/-- The commit trace of stC1W, for the crash witness. -/
def tW : List WEvent := (commit stC1W cacheW diskW).trace

/-- Crash disk after all 4 writes of the commit trace tW. -/
def dkW : Disk := applyEvents diskW (tW.take 4)

/-- Recovery trace from dkW. -/
def rW : List WEvent := (recover_from_log 2 lhW dkW).2.trace

/-- Crash disk after 1 write of the recovery trace rW. -/
def dkjW : Disk := applyEvents dkW (rW.take 1)

/-- Final disk after complete recovery from dkjW. -/
def dfinW : Disk := (recover_from_log 2 lhW dkjW).2.disk

/-- The state after log_write of block 100 from stTxnW. -/
def stC3resW : LogSt := ⟨2, 31, 0, 1, false, ⟨1, blkW⟩⟩

/-- Concrete block array with home blocks 100 and 101. -/
def blkW2 : List Nat := 100 :: 101 :: List.replicate 28 0

/-- The state after log_writes of blocks 100, 100, 101 from stTxnW. -/
def stC10resW : LogSt := ⟨2, 31, 0, 1, false, ⟨2, blkW2⟩⟩

/-! List index helpers, proved from first principles. -/

theorem getD_take_of_lt (l : List Nat) (n i : Nat) (h : i < n) :
    (l.take n).getD i 0 = l.getD i 0 := by
  induction l generalizing n i with
  | nil => simp
  | cons x xs ih =>
    cases n with
    | zero => omega
    | succ m =>
      cases i with
      | zero => simp
      | succ j => simpa using ih m j (by omega)

theorem getD_append_of_lt (l1 l2 : List Nat) (i : Nat) (h : i < l1.length) :
    (l1 ++ l2).getD i 0 = l1.getD i 0 := by
  induction l1 generalizing i with
  | nil => simp at h
  | cons x xs ih =>
    cases i with
    | zero => simp
    | succ j => simpa using ih j (by simpa using Nat.lt_of_succ_lt_succ h)

theorem getD_append_of_ge (l1 l2 : List Nat) (i : Nat) (h : l1.length ≤ i) :
    (l1 ++ l2).getD i 0 = l2.getD (i - l1.length) 0 := by
  induction l1 generalizing i with
  | nil => simp
  | cons x xs ih =>
    cases i with
    | zero => simp at h
    | succ j =>
      have := ih j (by simpa using Nat.le_of_succ_le_succ h)
      simpa using this

theorem getD_drop (l : List Nat) (n i : Nat) :
    (l.drop n).getD i 0 = l.getD (n + i) 0 := by
  induction l generalizing n with
  | nil => simp
  | cons x xs ih =>
    cases n with
    | zero => simp
    | succ m => simp [Nat.succ_add, ih m]

theorem getD_mem (l : List Nat) (i : Nat) (h : i < l.length) :
    l.getD i 0 ∈ l := by
  induction l generalizing i with
  | nil => simp at h
  | cons x xs ih =>
    cases i with
    | zero => simp
    | succ j =>
      exact List.mem_cons_of_mem x (ih j (by simpa using Nat.lt_of_succ_lt_succ h))

theorem getD_of_len_le (l : List Nat) (i : Nat) (h : l.length ≤ i) :
    l.getD i 0 = 0 := by
  induction l generalizing i with
  | nil => simp
  | cons x xs ih =>
    cases i with
    | zero => simp at h
    | succ j => simpa using ih j (by simpa using Nat.le_of_succ_le_succ h)

theorem getD_mem_take (l : List Nat) (n i : Nat) (hi : i < n) (hn : n ≤ l.length) :
    l.getD i 0 ∈ l.take n := by
  have h1 : (l.take n).getD i 0 = l.getD i 0 := getD_take_of_lt l n i hi
  have h2 : i < (l.take n).length := by
    rw [List.length_take]; omega
  have h3 := getD_mem (l.take n) i h2
  rwa [h1] at h3

theorem set_getD_self (l : List Nat) (i : Nat) (a : Nat)
    (h : l.getD i 0 = a) (hi : i < l.length) : l.set i a = l := by
  induction l generalizing i with
  | nil => simp at hi
  | cons x xs ih =>
    cases i with
    | zero => simp at h; simp [h]
    | succ j =>
      simp only [List.set]
      have := ih j (by simpa using h) (by simpa using Nat.lt_of_succ_lt_succ hi)
      simp [this]

theorem take_succ_set (l : List Nat) (n a : Nat) (h : n < l.length) :
    ((l.set n a).take (n+1)) = l.take n ++ [a] := by
  induction l generalizing n with
  | nil => simp at h
  | cons x xs ih =>
    cases n with
    | zero => simp
    | succ m =>
      simp only [List.set, List.take, List.cons_append]
      have := ih m (by simpa using Nat.lt_of_succ_lt_succ h)
      simp [this]

theorem nodup_getD_inj (l : List Nat) (hnd : l.Nodup) (i j : Nat)
    (hi : i < l.length) (hj : j < l.length) (h : l.getD i 0 = l.getD j 0) :
    i = j := by
  induction l generalizing i j with
  | nil => simp at hi
  | cons x xs ih =>
    rw [List.nodup_cons] at hnd
    cases i with
    | zero =>
      cases j with
      | zero => rfl
      | succ j' =>
        exfalso
        have hj' : j' < xs.length := by simpa using Nat.lt_of_succ_lt_succ hj
        have hx : x = xs.getD j' 0 := by simpa using h
        have hmem : x ∈ xs := by rw [hx]; exact getD_mem xs j' hj'
        exact hnd.1 hmem
    | succ i' =>
      cases j with
      | zero =>
        exfalso
        have hi' : i' < xs.length := by simpa using Nat.lt_of_succ_lt_succ hi
        have hx : x = xs.getD i' 0 := by simpa using h.symm
        have hmem : x ∈ xs := by rw [hx]; exact getD_mem xs i' hi'
        exact hnd.1 hmem
      | succ j' =>
        have := ih hnd.2 i' j' (by simpa using Nat.lt_of_succ_lt_succ hi)
          (by simpa using Nat.lt_of_succ_lt_succ hj) (by simpa using h)
        omega

theorem range_map_getD (l : List Nat) (n : Nat) (h : n ≤ l.length) :
    (List.range n).map (fun t => l.getD t 0) = l.take n := by
  induction n with
  | zero => simp
  | succ m ih =>
    rw [List.range_succ, List.map_append, ih (by omega)]
    have hm : m < l.length := by omega
    have : l.take (m+1) = l.take m ++ [l.getD m 0] := by
      have := take_succ_set l m (l.getD m 0) hm
      rwa [set_getD_self l m _ rfl hm] at this
    simp [this]

/-! copyFirst helpers. -/

theorem copyFirst_zero (src dst : List Nat) : copyFirst 0 src dst = dst := by
  simp [copyFirst]

theorem copyFirst_getD_lt (n : Nat) (src dst : List Nat) (i : Nat)
    (hi : i < n) (hs : i < src.length) :
    (copyFirst n src dst).getD i 0 = src.getD i 0 := by
  unfold copyFirst
  rw [getD_append_of_lt]
  · exact getD_take_of_lt src n i hi
  · rw [List.length_take]; omega

theorem copyFirst_getD_ge (n : Nat) (src dst : List Nat) (i : Nat)
    (hi : n ≤ i) (hs : n ≤ src.length) :
    (copyFirst n src dst).getD i 0 = dst.getD i 0 := by
  unfold copyFirst
  rw [getD_append_of_ge]
  · rw [List.length_take, getD_drop]
    congr 1
    omega
  · rw [List.length_take]; omega

theorem copyFirst_take (n : Nat) (src dst : List Nat) (hs : n ≤ src.length) :
    (copyFirst n src dst).take n = src.take n := by
  unfold copyFirst
  have hl : (src.take n).length = n := by rw [List.length_take]; omega
  rw [List.take_append_of_le_length (by omega), List.take_take]
  simp

theorem copyFirst_length (n : Nat) (src dst : List Nat)
    (hs : n ≤ src.length) (hd : n ≤ dst.length) :
    (copyFirst n src dst).length = dst.length := by
  unfold copyFirst
  rw [List.length_append, List.length_take, List.length_drop]
  omega

/-! Write-event trace helpers. -/

theorem applyEvents_nil (d : Disk) : applyEvents d [] = d := rfl

theorem applyEvents_cons (d : Disk) (e : WEvent) (es : List WEvent) :
    applyEvents d (e :: es) = applyEvents (applyEvent d e) es := rfl

theorem applyEvents_append (d : Disk) (es1 es2 : List WEvent) :
    applyEvents d (es1 ++ es2) = applyEvents (applyEvents d es1) es2 :=
  List.foldl_append _ _ _ _

theorem hdr_of_data_events (es : List WEvent) (d : Disk)
    (h : ∀ e ∈ es, isData e = true) : (applyEvents d es).hdr = d.hdr := by
  induction es generalizing d with
  | nil => rfl
  | cons e es ih =>
    rw [applyEvents_cons, ih _ (fun x hx => h x (List.mem_cons_of_mem e hx))]
    cases e with
    | wdata a v => rfl
    | whead hb => have := h _ (List.mem_cons_self _ _); simp [isData] at this

theorem data_of_untouched (es : List WEvent) (d : Disk) (a : Nat)
    (h : ∀ e ∈ es, wtarget e ≠ some a) : (applyEvents d es).data a = d.data a := by
  induction es generalizing d with
  | nil => rfl
  | cons e es ih =>
    rw [applyEvents_cons, ih _ (fun x hx => h x (List.mem_cons_of_mem e hx))]
    cases e with
    | wdata b v =>
      have hne := h _ (List.mem_cons_self _ _)
      simp only [wtarget, ne_eq, Option.some.injEq] at hne
      show (if a = b then v else d.data a) = d.data a
      rw [if_neg (fun hh => hne hh.symm)]
    | whead hb => rfl

theorem applyEvents_map_data_at (m : Nat) :
    ∀ (d : Disk) (f v : Nat → Nat) (t0 : Nat), t0 < m →
    (∀ t, t < m → f t = f t0 → t = t0) →
    (applyEvents d ((List.range m).map (fun t => WEvent.wdata (f t) (v t)))).data (f t0)
      = v t0 := by
  induction m with
  | zero => intro d f v t0 h; omega
  | succ m' ih =>
    intro d f v t0 ht0 hinj
    rw [List.range_succ_eq_map, List.map_cons, List.map_map, applyEvents_cons]
    have hcomp : ((fun t => WEvent.wdata (f t) (v t)) ∘ Nat.succ)
        = fun t => WEvent.wdata (f (t+1)) (v (t+1)) := by
      funext t; rfl
    rw [hcomp]
    cases t0 with
    | zero =>
      rw [data_of_untouched]
      · simp [applyEvent]
      · intro e he
        rw [List.mem_map] at he
        obtain ⟨t, ht, rfl⟩ := he
        rw [List.mem_range] at ht
        simp only [wtarget, ne_eq, Option.some.injEq]
        intro hfe
        have := hinj (t+1) (by omega) hfe
        omega
    | succ s =>
      exact ih _ (fun t => f (t+1)) (fun t => v (t+1)) s (by omega)
        (fun t ht hf => by
          have := hinj (t+1) (by omega) hf
          omega)

/-! write_log loop characterization. -/

theorem writeLogFrom_trace (start : Nat) (block : List Nat) (cache : Nat → Nat) :
    ∀ (cnt tail : Nat) (d : Disk),
    (writeLogFrom start block cache tail cnt d).2
      = (List.range cnt).map
          (fun t => WEvent.wdata (start + (tail + t) + 1) (cache (block.getD (tail + t) 0))) := by
  intro cnt
  induction cnt with
  | zero => intro tail d; simp [writeLogFrom]
  | succ c ih =>
    intro tail d
    rw [List.range_succ_eq_map, List.map_cons, List.map_map]
    show WEvent.wdata (start + tail + 1) (cache (block.getD tail 0))
        :: (writeLogFrom start block cache (tail+1) c _).2 = _
    rw [ih]
    congr 1
    apply List.map_congr_left
    intro t _
    simp only [Function.comp]
    have h1 : tail + 1 + t = tail + (t + 1) := by omega
    rw [h1]

theorem writeLogFrom_data_events (start : Nat) (block : List Nat) (cache : Nat → Nat)
    (cnt tail : Nat) (d : Disk) :
    ∀ e ∈ (writeLogFrom start block cache tail cnt d).2, isData e = true := by
  rw [writeLogFrom_trace]
  intro e he
  rw [List.mem_map] at he
  obtain ⟨t, _, rfl⟩ := he
  rfl

theorem writeLogFrom_disk (start : Nat) (block : List Nat) (cache : Nat → Nat) :
    ∀ (cnt tail : Nat) (d : Disk),
    (writeLogFrom start block cache tail cnt d).1
      = applyEvents d (writeLogFrom start block cache tail cnt d).2 := by
  intro cnt
  induction cnt with
  | zero => intro tail d; rfl
  | succ c ih =>
    intro tail d
    show (writeLogFrom start block cache (tail+1) c _).1 = _
    rw [ih]
    rfl

/-! install_trans loop characterization. -/

theorem installTransFrom_disk (recovering : Bool) (start : Nat) (block : List Nat) :
    ∀ (cnt tail : Nat) (d : Disk),
    (installTransFrom recovering start block tail cnt d).disk
      = applyEvents d (installTransFrom recovering start block tail cnt d).trace := by
  intro cnt
  induction cnt with
  | zero => intro tail d; rfl
  | succ c ih =>
    intro tail d
    show (installTransFrom recovering start block (tail+1) c _).disk = _
    rw [ih]
    rfl

theorem installTransFrom_targets (recovering : Bool) (start : Nat) (block : List Nat) :
    ∀ (cnt tail : Nat) (d : Disk),
    (installTransFrom recovering start block tail cnt d).trace.map wtarget
      = (List.range cnt).map (fun t => some (block.getD (tail + t) 0)) := by
  intro cnt
  induction cnt with
  | zero => intro tail d; simp [installTransFrom]
  | succ c ih =>
    intro tail d
    rw [List.range_succ_eq_map, List.map_cons, List.map_map]
    show wtarget (WEvent.wdata (block.getD tail 0) _)
        :: ((installTransFrom recovering start block (tail+1) c _).trace.map wtarget) = _
    rw [ih]
    congr 1
    apply List.map_congr_left
    intro t _
    simp only [Function.comp]
    congr 2
    omega

theorem installTransFrom_unpins (recovering : Bool) (start : Nat) (block : List Nat) :
    ∀ (cnt tail : Nat) (d : Disk),
    (installTransFrom recovering start block tail cnt d).unpins
      = if recovering then []
        else (List.range cnt).map (fun t => block.getD (tail + t) 0) := by
  intro cnt
  induction cnt with
  | zero => intro tail d; cases recovering <;> simp [installTransFrom]
  | succ c ih =>
    intro tail d
    show ((if recovering then [] else [block.getD tail 0])
        ++ (installTransFrom recovering start block (tail+1) c _).unpins) = _
    rw [ih]
    cases recovering with
    | true => simp
    | false =>
      simp only [if_neg Bool.false_ne_true, List.singleton_append,
        List.range_succ_eq_map, List.map_cons, List.map_map]
      congr 1
      apply List.map_congr_left
      intro t _
      simp only [Function.comp]
      have h1 : tail + 1 + t = tail + (t + 1) := by omega
      rw [h1]

theorem installTransFrom_trace (recovering : Bool) (start : Nat) (block : List Nat) :
    ∀ (cnt tail : Nat) (d : Disk),
    (∀ i j, tail ≤ i → i < tail + cnt → tail ≤ j → j < tail + cnt →
        block.getD i 0 ≠ start + j + 1) →
    (installTransFrom recovering start block tail cnt d).trace
      = (List.range cnt).map
          (fun t => WEvent.wdata (block.getD (tail + t) 0) (d.data (start + (tail + t) + 1))) := by
  intro cnt
  induction cnt with
  | zero => intro tail d _; simp [installTransFrom]
  | succ c ih =>
    intro tail d hdisj
    rw [List.range_succ_eq_map, List.map_cons, List.map_map]
    show WEvent.wdata (block.getD tail 0) (d.data (start + tail + 1))
        :: (installTransFrom recovering start block (tail+1) c
              (applyEvent d (WEvent.wdata (block.getD tail 0) (d.data (start + tail + 1))))).trace
        = _
    rw [ih (tail+1) _ (fun i j hi1 hi2 hj1 hj2 =>
      hdisj i j (by omega) (by omega) (by omega) (by omega))]
    congr 1
    apply List.map_congr_left
    intro t ht
    rw [List.mem_range] at ht
    simp only [Function.comp]
    have h2 : (applyEvent d (WEvent.wdata (block.getD tail 0) (d.data (start + tail + 1)))).data
        (start + (tail + 1 + t) + 1) = d.data (start + (tail + 1 + t) + 1) := by
      show (if start + (tail + 1 + t) + 1 = block.getD tail 0 then _ else
        d.data (start + (tail + 1 + t) + 1)) = d.data (start + (tail + 1 + t) + 1)
      rw [if_neg]
      intro hh
      exact hdisj tail (tail + 1 + t) (by omega) (by omega) (by omega) (by omega) hh.symm
    have h1 : tail + 1 + t = tail + (t + 1) := by omega
    rw [h2, h1]

theorem installTransFrom_data_events (recovering : Bool) (start : Nat) (block : List Nat)
    (cnt tail : Nat) (d : Disk) :
    ∀ e ∈ (installTransFrom recovering start block tail cnt d).trace, isData e = true := by
  intro e he
  have htg := installTransFrom_targets recovering start block cnt tail d
  have : wtarget e ∈ (installTransFrom recovering start block tail cnt d).trace.map wtarget :=
    List.mem_map_of_mem wtarget he
  rw [htg, List.mem_map] at this
  obtain ⟨t, _, hv⟩ := this
  cases e with
  | wdata a v => rfl
  | whead hb => simp [wtarget] at hv

theorem installTransFrom_target_mem (recovering : Bool) (start : Nat) (block : List Nat)
    (cnt tail : Nat) (d : Disk) (a v : Nat)
    (h : WEvent.wdata a v ∈ (installTransFrom recovering start block tail cnt d).trace) :
    ∃ t, t < cnt ∧ a = block.getD (tail + t) 0 := by
  have htg := installTransFrom_targets recovering start block cnt tail d
  have hm : some a ∈ (installTransFrom recovering start block tail cnt d).trace.map wtarget := by
    have := List.mem_map_of_mem wtarget h
    simpa [wtarget] using this
  rw [htg, List.mem_map] at hm
  obtain ⟨t, ht, hv⟩ := hm
  rw [List.mem_range] at ht
  exact ⟨t, ht, by simpa using hv.symm⟩

/-! Wrappers for the zero-based loops. -/

theorem write_log_trace (start : Nat) (block : List Nat) (n : Nat) (cache : Nat → Nat)
    (d : Disk) :
    (write_log start block n cache d).2
      = (List.range n).map (fun t => WEvent.wdata (start + t + 1) (cache (block.getD t 0))) := by
  unfold write_log
  rw [writeLogFrom_trace]
  apply List.map_congr_left
  intro t _
  simp

theorem write_log_disk (start : Nat) (block : List Nat) (n : Nat) (cache : Nat → Nat)
    (d : Disk) :
    (write_log start block n cache d).1 = applyEvents d (write_log start block n cache d).2 :=
  writeLogFrom_disk start block cache n 0 d

theorem write_log_hdr (start : Nat) (block : List Nat) (n : Nat) (cache : Nat → Nat)
    (d : Disk) : (write_log start block n cache d).1.hdr = d.hdr := by
  rw [write_log_disk]
  exact hdr_of_data_events _ d (writeLogFrom_data_events start block cache n 0 d)

theorem write_log_slots (start : Nat) (block : List Nat) (n : Nat) (cache : Nat → Nat)
    (d : Disk) (t : Nat) (ht : t < n) :
    (write_log start block n cache d).1.data (start + t + 1) = cache (block.getD t 0) := by
  rw [write_log_disk, write_log_trace]
  exact applyEvents_map_data_at n d (fun i => start + i + 1)
    (fun i => cache (block.getD i 0)) t ht (fun t' _ h => by
      have h' : start + t' + 1 = start + t + 1 := h
      omega)

theorem write_log_data_of_ne (start : Nat) (block : List Nat) (n : Nat) (cache : Nat → Nat)
    (d : Disk) (a : Nat) (ha : ∀ j, j < n → a ≠ start + j + 1) :
    (write_log start block n cache d).1.data a = d.data a := by
  rw [write_log_disk, write_log_trace]
  apply data_of_untouched
  intro e he
  rw [List.mem_map] at he
  obtain ⟨t, ht, rfl⟩ := he
  rw [List.mem_range] at ht
  simp only [wtarget, ne_eq, Option.some.injEq]
  intro hh
  exact ha t ht hh.symm

theorem install_trans_trace (recovering : Bool) (start : Nat) (block : List Nat)
    (n : Nat) (d : Disk)
    (hd : ∀ i j, i < n → j < n → block.getD i 0 ≠ start + j + 1) :
    (install_trans recovering start block n d).trace
      = (List.range n).map (fun t => WEvent.wdata (block.getD t 0) (d.data (start + t + 1))) := by
  unfold install_trans
  rw [installTransFrom_trace recovering start block n 0 d
    (fun i j h1 h2 h3 h4 => hd i j (by omega) (by omega))]
  apply List.map_congr_left
  intro t _
  simp

theorem install_trans_disk (recovering : Bool) (start : Nat) (block : List Nat)
    (n : Nat) (d : Disk) :
    (install_trans recovering start block n d).disk
      = applyEvents d (install_trans recovering start block n d).trace :=
  installTransFrom_disk recovering start block n 0 d

theorem install_trans_hdr (recovering : Bool) (start : Nat) (block : List Nat)
    (n : Nat) (d : Disk) :
    (install_trans recovering start block n d).disk.hdr = d.hdr := by
  rw [install_trans_disk]
  exact hdr_of_data_events _ d (installTransFrom_data_events recovering start block n 0 d)

theorem install_trans_unpins_commit (start : Nat) (block : List Nat) (n : Nat) (d : Disk)
    (hlen : n ≤ block.length) :
    (install_trans false start block n d).unpins = block.take n := by
  unfold install_trans
  rw [installTransFrom_unpins]
  simp only [if_neg Bool.false_ne_true]
  rw [← range_map_getD block n hlen]
  apply List.map_congr_left
  intro t _
  simp

theorem install_trans_unpins_rec (start : Nat) (block : List Nat) (n : Nat) (d : Disk) :
    (install_trans true start block n d).unpins = [] := by
  unfold install_trans
  rw [installTransFrom_unpins]
  simp

/-! write_head and read_head basic equations. -/

theorem write_head_fst (lhn : Nat) (lhblock : List Nat) (d : Disk) :
    (write_head lhn lhblock d).1
      = ⟨⟨lhn, copyFirst lhn lhblock d.hdr.block, d.hdr.rest⟩, d.data⟩ := rfl

theorem write_head_snd (lhn : Nat) (lhblock : List Nat) (d : Disk) :
    (write_head lhn lhblock d).2
      = WEvent.whead ⟨lhn, copyFirst lhn lhblock d.hdr.block, d.hdr.rest⟩ := rfl

theorem read_head_eq (d : Disk) (lhprev : LogHeader) :
    read_head d lhprev = ⟨d.hdr.n, copyFirst d.hdr.n d.hdr.block lhprev.block⟩ := rfl

/-! recover_from_log characterization. -/

theorem recover_disk_eq_apply (start : Nat) (lhprev : LogHeader) (d : Disk) :
    (recover_from_log start lhprev d).2.disk
      = applyEvents d (recover_from_log start lhprev d).2.trace := by
  show (write_head 0 _ (install_trans true start (read_head d lhprev).block
      (read_head d lhprev).n d).disk).1
    = applyEvents d ((install_trans true start (read_head d lhprev).block
        (read_head d lhprev).n d).trace
      ++ [(write_head 0 _ (install_trans true start (read_head d lhprev).block
            (read_head d lhprev).n d).disk).2])
  rw [applyEvents_append, ← install_trans_disk]
  rfl

theorem recover_empty (start : Nat) (lhprev : LogHeader) (d : Disk) (h : d.hdr.n = 0) :
    (recover_from_log start lhprev d).2.disk = d ∧
    (recover_from_log start lhprev d).2.trace = [WEvent.whead d.hdr] ∧
    (recover_from_log start lhprev d).2.unpins = [] := by
  obtain ⟨hd, data⟩ := d
  obtain ⟨n0, blk, rest⟩ := hd
  dsimp only at h
  subst h
  exact ⟨rfl, rfl, rfl⟩

theorem recover_nonempty (start : Nat) (lhprev : LogHeader) (d : Disk) (m : Nat)
    (hm : d.hdr.n = m) (hlen : m ≤ d.hdr.block.length)
    (hdisj : ∀ i j, i < m → j < m → d.hdr.block.getD i 0 ≠ start + j + 1) :
    (recover_from_log start lhprev d).2.trace
      = ((List.range m).map fun t => WEvent.wdata (d.hdr.block.getD t 0) (d.data (start + t + 1)))
        ++ [WEvent.whead ⟨0, d.hdr.block, d.hdr.rest⟩]
    ∧ (recover_from_log start lhprev d).2.disk.hdr = ⟨0, d.hdr.block, d.hdr.rest⟩
    ∧ (∀ a, a ∉ d.hdr.block.take m →
        (recover_from_log start lhprev d).2.disk.data a = d.data a)
    ∧ ((d.hdr.block.take m).Nodup → ∀ t, t < m →
        (recover_from_log start lhprev d).2.disk.data (d.hdr.block.getD t 0)
          = d.data (start + t + 1)) := by
  have hkey : ∀ t, t < m → (read_head d lhprev).block.getD t 0 = d.hdr.block.getD t 0 := by
    intro t ht
    rw [read_head_eq]
    dsimp only
    rw [hm]
    exact copyFirst_getD_lt m _ _ t ht (by omega)
  have hn1 : (read_head d lhprev).n = m := by rw [read_head_eq]; exact hm
  have htr : (install_trans true start (read_head d lhprev).block (read_head d lhprev).n d).trace
      = (List.range m).map fun t => WEvent.wdata (d.hdr.block.getD t 0) (d.data (start + t + 1)) := by
    rw [hn1]
    rw [install_trans_trace true start _ m d (fun i j hi hj => by
      rw [hkey i hi]
      exact hdisj i j hi hj)]
    apply List.map_congr_left
    intro t ht
    rw [List.mem_range] at ht
    rw [hkey t ht]
  have hhdr : (install_trans true start (read_head d lhprev).block
      (read_head d lhprev).n d).disk.hdr = d.hdr :=
    install_trans_hdr true start _ _ d
  have hform : (recover_from_log start lhprev d).2
      = ⟨(write_head 0 (read_head d lhprev).block
            (install_trans true start (read_head d lhprev).block
              (read_head d lhprev).n d).disk).1,
         (install_trans true start (read_head d lhprev).block
             (read_head d lhprev).n d).trace
           ++ [(write_head 0 (read_head d lhprev).block
                 (install_trans true start (read_head d lhprev).block
                   (read_head d lhprev).n d).disk).2],
         (install_trans true start (read_head d lhprev).block
             (read_head d lhprev).n d).unpins⟩ := rfl
  have hdata : (recover_from_log start lhprev d).2.disk.data
      = (applyEvents d ((List.range m).map fun t =>
          WEvent.wdata (d.hdr.block.getD t 0) (d.data (start + t + 1)))).data := by
    rw [hform]
    show (install_trans true start (read_head d lhprev).block
        (read_head d lhprev).n d).disk.data = _
    rw [install_trans_disk, htr]
  refine ⟨?_, ?_, ?_, ?_⟩
  · rw [hform]
    show (install_trans true start (read_head d lhprev).block
          (read_head d lhprev).n d).trace
        ++ [(write_head 0 (read_head d lhprev).block
              (install_trans true start (read_head d lhprev).block
                (read_head d lhprev).n d).disk).2] = _
    rw [htr, write_head_snd, copyFirst_zero, hhdr]
  · rw [hform]
    show (write_head 0 (read_head d lhprev).block
        (install_trans true start (read_head d lhprev).block
          (read_head d lhprev).n d).disk).1.hdr = _
    rw [write_head_fst]
    dsimp only
    rw [copyFirst_zero, hhdr]
  · intro a ha
    rw [hdata]
    apply data_of_untouched
    intro e he
    rw [List.mem_map] at he
    obtain ⟨t, ht, rfl⟩ := he
    rw [List.mem_range] at ht
    simp only [wtarget, ne_eq, Option.some.injEq]
    intro hh
    exact ha (hh ▸ getD_mem_take d.hdr.block m t ht hlen)
  · intro hnd t ht
    rw [hdata]
    refine applyEvents_map_data_at m d (fun t => d.hdr.block.getD t 0)
      (fun t => d.data (start + t + 1)) t ht (fun t' ht' hf => ?_)
    have hf' : d.hdr.block.getD t' 0 = d.hdr.block.getD t 0 := hf
    have h1 : (d.hdr.block.take m).getD t' 0 = (d.hdr.block.take m).getD t 0 := by
      rw [getD_take_of_lt _ _ _ ht', getD_take_of_lt _ _ _ ht]
      exact hf'
    have hlt : (d.hdr.block.take m).length = m := by
      rw [List.length_take]; omega
    exact nodup_getD_inj _ hnd t' t (by omega) (by omega) h1

/-! commit characterization. -/

theorem commit_pos_eq (st : LogSt) (cache : Nat → Nat) (d : Disk) (hn : 0 < st.lh.n) :
    commit st cache d
      = ⟨{st with lh := ⟨0, st.lh.block⟩},
         (write_head 0 st.lh.block
           (install_trans false st.start st.lh.block st.lh.n
             (write_head st.lh.n st.lh.block
               (write_log st.start st.lh.block st.lh.n cache d).1).1).disk).1,
         (write_log st.start st.lh.block st.lh.n cache d).2
           ++ (write_head st.lh.n st.lh.block
                 (write_log st.start st.lh.block st.lh.n cache d).1).2
             :: ((install_trans false st.start st.lh.block st.lh.n
                   (write_head st.lh.n st.lh.block
                     (write_log st.start st.lh.block st.lh.n cache d).1).1).trace
               ++ [(write_head 0 st.lh.block
                     (install_trans false st.start st.lh.block st.lh.n
                       (write_head st.lh.n st.lh.block
                         (write_log st.start st.lh.block st.lh.n cache d).1).1).disk).2]),
         (install_trans false st.start st.lh.block st.lh.n
           (write_head st.lh.n st.lh.block
             (write_log st.start st.lh.block st.lh.n cache d).1).1).unpins⟩ := by
  unfold commit
  rw [if_pos hn]

theorem commit_zero_eq (st : LogSt) (cache : Nat → Nat) (d : Disk) (hn : st.lh.n = 0) :
    commit st cache d = ⟨st, d, [], []⟩ := by
  unfold commit
  rw [if_neg (by omega)]

theorem commit_trace_eq (st : LogSt) (cache : Nat → Nat) (d : Disk)
    (hn : 0 < st.lh.n)
    (hd : ∀ i j, i < st.lh.n → j < st.lh.n →
        st.lh.block.getD i 0 ≠ st.start + j + 1) :
    (commit st cache d).trace
      = ((List.range st.lh.n).map fun i =>
            WEvent.wdata (st.start + i + 1) (cache (st.lh.block.getD i 0)))
        ++ WEvent.whead ⟨st.lh.n, copyFirst st.lh.n st.lh.block d.hdr.block, d.hdr.rest⟩
          :: (((List.range st.lh.n).map fun i =>
                WEvent.wdata (st.lh.block.getD i 0) (cache (st.lh.block.getD i 0)))
            ++ [WEvent.whead ⟨0, copyFirst st.lh.n st.lh.block d.hdr.block, d.hdr.rest⟩]) := by
  rw [commit_pos_eq st cache d hn]
  dsimp only
  have hLhdr : (write_log st.start st.lh.block st.lh.n cache d).1.hdr = d.hdr :=
    write_log_hdr st.start st.lh.block st.lh.n cache d
  have hwh1 : (write_head st.lh.n st.lh.block
        (write_log st.start st.lh.block st.lh.n cache d).1).1
      = ⟨⟨st.lh.n, copyFirst st.lh.n st.lh.block d.hdr.block, d.hdr.rest⟩,
         (write_log st.start st.lh.block st.lh.n cache d).1.data⟩ := by
    rw [write_head_fst, hLhdr]
  have hwh2 : (write_head st.lh.n st.lh.block
        (write_log st.start st.lh.block st.lh.n cache d).1).2
      = WEvent.whead ⟨st.lh.n, copyFirst st.lh.n st.lh.block d.hdr.block, d.hdr.rest⟩ := by
    rw [write_head_snd, hLhdr]
  have hins : (install_trans false st.start st.lh.block st.lh.n
        (write_head st.lh.n st.lh.block
          (write_log st.start st.lh.block st.lh.n cache d).1).1).trace
      = (List.range st.lh.n).map fun i =>
          WEvent.wdata (st.lh.block.getD i 0) (cache (st.lh.block.getD i 0)) := by
    rw [install_trans_trace false st.start st.lh.block st.lh.n _ hd]
    apply List.map_congr_left
    intro t ht
    rw [List.mem_range] at ht
    rw [hwh1]
    dsimp only
    rw [write_log_slots st.start st.lh.block st.lh.n cache d t ht]
  have hinshdr : (install_trans false st.start st.lh.block st.lh.n
        (write_head st.lh.n st.lh.block
          (write_log st.start st.lh.block st.lh.n cache d).1).1).disk.hdr
      = ⟨st.lh.n, copyFirst st.lh.n st.lh.block d.hdr.block, d.hdr.rest⟩ := by
    rw [install_trans_hdr, hwh1]
  have hwh2snd : (write_head 0 st.lh.block
        (install_trans false st.start st.lh.block st.lh.n
          (write_head st.lh.n st.lh.block
            (write_log st.start st.lh.block st.lh.n cache d).1).1).disk).2
      = WEvent.whead ⟨0, copyFirst st.lh.n st.lh.block d.hdr.block, d.hdr.rest⟩ := by
    rw [write_head_snd, hinshdr]
    dsimp only
    rw [copyFirst_zero]
  rw [write_log_trace, hwh2, hins, hwh2snd]

theorem commit_st_eq (st : LogSt) (cache : Nat → Nat) (d : Disk) (hn : 0 < st.lh.n) :
    (commit st cache d).st = {st with lh := ⟨0, st.lh.block⟩} := by
  rw [commit_pos_eq st cache d hn]

theorem commit_unpins_eq (st : LogSt) (cache : Nat → Nat) (d : Disk)
    (hlen : st.lh.n ≤ st.lh.block.length) :
    (commit st cache d).unpins = st.lh.block.take st.lh.n := by
  by_cases hn : 0 < st.lh.n
  · rw [commit_pos_eq st cache d hn]
    dsimp only
    exact install_trans_unpins_commit st.start st.lh.block st.lh.n _ hlen
  · have h0 : st.lh.n = 0 := by omega
    rw [commit_zero_eq st cache d h0, h0]
    rfl

/-! logFind and log_write characterization. -/

theorem logFind_of_not_mem (bno : Nat) (l : List Nat) (h : bno ∉ l) :
    logFind bno l = l.length := by
  induction l with
  | nil => rfl
  | cons x xs ih =>
    rw [List.mem_cons] at h
    push_neg at h
    show (if x = bno then 0 else logFind bno xs + 1) = xs.length + 1
    rw [if_neg (fun hh => h.1 hh.symm), ih h.2]

theorem logFind_lt_of_mem (bno : Nat) (l : List Nat) (h : bno ∈ l) :
    logFind bno l < l.length := by
  induction l with
  | nil => simp at h
  | cons x xs ih =>
    show (if x = bno then 0 else logFind bno xs + 1) < xs.length + 1
    by_cases hx : x = bno
    · rw [if_pos hx]
      omega
    · rw [if_neg hx]
      have hm : bno ∈ xs := by
        rcases List.mem_cons.mp h with h' | h'
        · exact absurd h'.symm hx
        · exact h'
      have := ih hm
      omega

theorem logFind_getD (bno : Nat) (l : List Nat) (h : bno ∈ l) :
    l.getD (logFind bno l) 0 = bno := by
  induction l with
  | nil => simp at h
  | cons x xs ih =>
    show (x :: xs).getD (if x = bno then 0 else logFind bno xs + 1) 0 = bno
    by_cases hx : x = bno
    · rw [if_pos hx]
      exact hx
    · rw [if_neg hx]
      have hm : bno ∈ xs := by
        rcases List.mem_cons.mp h with h' | h'
        · exact absurd h'.symm hx
        · exact h'
      exact ih hm

theorem nodup_append_singleton (l : List Nat) (a : Nat)
    (hnd : l.Nodup) (ha : a ∉ l) : (l ++ [a]).Nodup := by
  rw [List.nodup_append_comm]
  simpa [List.nodup_cons] using ⟨ha, hnd⟩

theorem log_write_step (st : LogSt) (bno : Nat) (st' : LogSt) (p : Bool)
    (hblk : st.lh.block.length = LOGSIZE)
    (h : log_write st bno = some (st', p)) :
    st'.start = st.start ∧ st'.size = st.size ∧ st'.dev = st.dev ∧
    st'.outstanding = st.outstanding ∧ st'.committing = st.committing ∧
    st'.lh.block.length = LOGSIZE ∧
    st.lh.n < LOGSIZE ∧
    (bno ∈ st.lh.block.take st.lh.n →
      p = false ∧ st'.lh.n = st.lh.n ∧ st'.lh.block = st.lh.block) ∧
    (bno ∉ st.lh.block.take st.lh.n →
      p = true ∧ st'.lh.n = st.lh.n + 1 ∧
      st'.lh.block = st.lh.block.set st.lh.n bno ∧
      st'.lh.block.take st'.lh.n = st.lh.block.take st.lh.n ++ [bno]) := by
  unfold log_write at h
  by_cases h1 : LOGSIZE ≤ st.lh.n ∨ st.size - 1 ≤ st.lh.n
  · rw [if_pos h1] at h
    exact absurd h (by simp)
  · rw [if_neg h1] at h
    by_cases h2 : st.outstanding < 1
    · rw [if_pos h2] at h
      exact absurd h (by simp)
    · rw [if_neg h2] at h
      push_neg at h1
      have hnlt : st.lh.n < LOGSIZE := h1.1
      have hlen : (st.lh.block.take st.lh.n).length = st.lh.n := by
        rw [List.length_take]
        omega
      dsimp only at h
      by_cases hf : logFind bno (st.lh.block.take st.lh.n) = st.lh.n
      · rw [if_pos hf] at h
        have hp : st' = {st with lh := ⟨st.lh.n + 1, st.lh.block.set (logFind bno (st.lh.block.take st.lh.n)) bno⟩}
            ∧ p = true := by
          have := Option.some.inj h
          exact ⟨(congrArg Prod.fst this).symm, (congrArg Prod.snd this).symm⟩
        obtain ⟨hst', hptrue⟩ := hp
        have hnotmem : bno ∉ st.lh.block.take st.lh.n := by
          intro hmem
          have := logFind_lt_of_mem bno _ hmem
          omega
        subst hst'
        refine ⟨rfl, rfl, rfl, rfl, rfl, by simp [hblk], hnlt, ?_, ?_⟩
        · intro hmem
          exact absurd hmem hnotmem
        · intro _
          rw [hf]
          refine ⟨hptrue, rfl, rfl, ?_⟩
          exact take_succ_set st.lh.block st.lh.n bno (by omega)
      · rw [if_neg hf] at h
        have hp : st' = {st with lh := ⟨st.lh.n, st.lh.block.set (logFind bno (st.lh.block.take st.lh.n)) bno⟩}
            ∧ p = false := by
          have := Option.some.inj h
          exact ⟨(congrArg Prod.fst this).symm, (congrArg Prod.snd this).symm⟩
        obtain ⟨hst', hpfalse⟩ := hp
        have hmem : bno ∈ st.lh.block.take st.lh.n := by
          by_contra hnm
          exact hf (by rw [logFind_of_not_mem bno _ hnm, hlen])
        have hflt : logFind bno (st.lh.block.take st.lh.n) < st.lh.n := by
          have := logFind_lt_of_mem bno _ hmem
          omega
        have hself : st.lh.block.set (logFind bno (st.lh.block.take st.lh.n)) bno
            = st.lh.block := by
          apply set_getD_self
          · rw [← getD_take_of_lt st.lh.block st.lh.n _ hflt]
            exact logFind_getD bno _ hmem
          · omega
        subst hst'
        refine ⟨rfl, rfl, rfl, rfl, rfl, by simp [hself, hblk], hnlt, ?_, ?_⟩
        · intro _
          exact ⟨hpfalse, rfl, by simp [hself]⟩
        · intro hnm
          exact absurd hmem hnm

theorem runLogWrites_invariant (bnos : List Nat) :
    ∀ st st2 pins,
    st.lh.block.length = LOGSIZE →
    st.lh.n ≤ LOGSIZE →
    (st.lh.block.take st.lh.n).Nodup →
    runLogWrites st bnos = some (st2, pins) →
    st2.lh.block.length = LOGSIZE ∧ st2.lh.n ≤ LOGSIZE ∧
    (st2.lh.block.take st2.lh.n).Nodup ∧
    st2.lh.block.take st2.lh.n = st.lh.block.take st.lh.n ++ pins := by
  induction bnos with
  | nil =>
    intro st st2 pins hblk hn hnd h
    have := Option.some.inj h
    have hst : st = st2 := congrArg Prod.fst this
    have hpins : ([] : List Nat) = pins := congrArg Prod.snd this
    subst hst
    rw [← hpins]
    exact ⟨hblk, hn, hnd, by simp⟩
  | cons b bs ih =>
    intro st st2 pins hblk hn hnd h
    rw [runLogWrites] at h
    cases hlw : log_write st b with
    | none =>
      rw [hlw] at h
      dsimp only at h
      exact absurd h (by simp)
    | some r =>
      obtain ⟨st1, p⟩ := r
      rw [hlw] at h
      dsimp only at h
      cases hrun : runLogWrites st1 bs with
      | none =>
        rw [hrun] at h
        dsimp only at h
        exact absurd h (by simp)
      | some r2 =>
        obtain ⟨st2', pins'⟩ := r2
        rw [hrun] at h
        dsimp only at h
        have hinj := Option.some.inj h
        have hst2 : st2' = st2 := congrArg Prod.fst hinj
        have hpins : (if p then [b] else []) ++ pins' = pins := congrArg Prod.snd hinj
        subst hst2
        obtain ⟨_, _, _, _, _, hblk1, hnlt, habs, hnew⟩ :=
          log_write_step st b st1 p hblk hlw
        by_cases hmem : b ∈ st.lh.block.take st.lh.n
        · obtain ⟨hp, hn1, hb1⟩ := habs hmem
          have htk1 : st1.lh.block.take st1.lh.n = st.lh.block.take st.lh.n := by
            rw [hn1, hb1]
          obtain ⟨hblk2, hn2, hnd2, htk2⟩ := ih st1 st2' pins' hblk1
            (by omega) (by rw [htk1]; exact hnd) hrun
          refine ⟨hblk2, hn2, hnd2, ?_⟩
          rw [htk2, htk1, ← hpins, hp]
          simp
        · obtain ⟨hp, hn1, _, htk1⟩ := hnew hmem
          obtain ⟨hblk2, hn2, hnd2, htk2⟩ := ih st1 st2' pins' hblk1
            (by omega) (by rw [htk1]; exact nodup_append_singleton _ _ hnd hmem) hrun
          refine ⟨hblk2, hn2, hnd2, ?_⟩
          rw [htk2, htk1, ← hpins, hp]
          simp

/-! Claim theorems and witnesses. -/

/-- C2: begin_op admits a caller (increments outstanding and returns) only
when committing is false and lh.n + (outstanding + 1) * MAXOPBLOCKS ≤ LOGSIZE,
sleeping otherwise; whenever it returns successfully the reservation
invariant lh.n + outstanding * MAXOPBLOCKS ≤ LOGSIZE holds. -/
theorem begin_op_reservation (st : LogSt) :
    (∀ st', begin_op st = some st' →
      st.committing = false ∧
      (st.lh.n : Int) + (st.outstanding + 1) * (MAXOPBLOCKS : Int) ≤ (LOGSIZE : Int) ∧
      st'.outstanding = st.outstanding + 1 ∧ st'.lh = st.lh ∧
      (st'.lh.n : Int) + st'.outstanding * (MAXOPBLOCKS : Int) ≤ (LOGSIZE : Int)) ∧
    (begin_op st = none ↔ st.committing = true ∨
      (st.lh.n : Int) + (st.outstanding + 1) * (MAXOPBLOCKS : Int) > (LOGSIZE : Int)) := by
  constructor
  · intro st' h
    unfold begin_op at h
    by_cases hc : st.committing
    · rw [if_pos hc] at h
      exact absurd h (by simp)
    · rw [if_neg hc] at h
      by_cases hg : (st.lh.n : Int) + (st.outstanding + 1) * (MAXOPBLOCKS : Int) > (LOGSIZE : Int)
      · rw [if_pos hg] at h
        exact absurd h (by simp)
      · rw [if_neg hg] at h
        have hst : st' = {st with outstanding := st.outstanding + 1} := by
          have := Option.some.inj h
          exact this.symm
        subst hst
        refine ⟨by simp [hc], by omega, rfl, rfl, ?_⟩
        dsimp only
        omega
  · unfold begin_op
    by_cases hc : st.committing
    · rw [if_pos hc]
      simp [hc]
    · rw [if_neg hc]
      by_cases hg : (st.lh.n : Int) + (st.outstanding + 1) * (MAXOPBLOCKS : Int) > (LOGSIZE : Int)
      · rw [if_pos hg]
        simp [hc, hg]
      · rw [if_neg hg]
        simp [hc, hg]

/-- Witness for C2 at a concrete admission. -/
theorem begin_op_reservation_witness :
    beginW.committing = false ∧
    (beginW.lh.n : Int) + (beginW.outstanding + 1) * (MAXOPBLOCKS : Int) ≤ (LOGSIZE : Int) ∧
    beginWres.outstanding = beginW.outstanding + 1 ∧ beginWres.lh = beginW.lh ∧
    (beginWres.lh.n : Int) + beginWres.outstanding * (MAXOPBLOCKS : Int) ≤ (LOGSIZE : Int) :=
  (begin_op_reservation beginW).1 beginWres (by decide)

/-- C5: recovery is idempotent: running recover_from_log twice in succession
yields the same disk state as running it once, for every initial disk. -/
theorem recover_idempotent (start : Nat) (lh0 lh1 : LogHeader) (d : Disk) :
    (recover_from_log start lh1 (recover_from_log start lh0 d).2.disk).2.disk
      = (recover_from_log start lh0 d).2.disk := by
  have h0 : (recover_from_log start lh0 d).2.disk.hdr.n = 0 := by
    show ((write_head 0 (read_head d lh0).block
        (install_trans true start (read_head d lh0).block
          (read_head d lh0).n d).disk).1).hdr.n = 0
    rw [write_head_fst]
  exact (recover_empty start lh1 _ h0).1

/-- Witness for C5 at a concrete disk. -/
theorem recover_idempotent_witness :
    (recover_from_log 2 lhW (recover_from_log 2 lhW diskW).2.disk).2.disk
      = (recover_from_log 2 lhW diskW).2.disk :=
  recover_idempotent 2 lhW lhW diskW

/-- C6: log_write panics if and only if lh.n ≥ LOGSIZE, or lh.n ≥ size − 1,
or outstanding < 1; otherwise it returns normally. -/
theorem log_write_panic_iff (st : LogSt) (bno : Nat) :
    log_write st bno = none ↔
      (LOGSIZE ≤ st.lh.n ∨ st.size - 1 ≤ st.lh.n ∨ st.outstanding < 1) := by
  constructor
  · intro h
    unfold log_write at h
    by_cases h1 : LOGSIZE ≤ st.lh.n ∨ st.size - 1 ≤ st.lh.n
    · tauto
    · rw [if_neg h1] at h
      by_cases h2 : st.outstanding < 1
      · tauto
      · rw [if_neg h2] at h
        exfalso
        dsimp only at h
        split at h <;> exact Option.noConfusion h
  · intro h
    unfold log_write
    rcases h with h | h | h
    · rw [if_pos (Or.inl h)]
    · rw [if_pos (Or.inr h)]
    · by_cases h1 : LOGSIZE ≤ st.lh.n ∨ st.size - 1 ≤ st.lh.n
      · rw [if_pos h1]
      · rw [if_neg h1, if_pos h]

/-- Witness for C6: a log_write outside any transaction panics. -/
theorem log_write_panic_iff_witness :
    log_write stPanicW 100 = none ↔
      (LOGSIZE ≤ stPanicW.lh.n ∨ stPanicW.size - 1 ≤ stPanicW.lh.n ∨
        stPanicW.outstanding < 1) :=
  log_write_panic_iff stPanicW 100

/-- C7: end_op decrements outstanding and panics if committing is already
true; if the decremented count is 0 it sets committing, runs commit, clears
committing and wakes all sleepers; otherwise it wakes all sleepers and does
not commit. -/
theorem end_op_spec (st : LogSt) (cache : Nat → Nat) (d : Disk) :
    (st.committing = true → end_op st cache d = none) ∧
    (st.committing = false → st.outstanding - 1 = 0 →
      end_op st cache d = some
        ⟨{(commit ⟨st.start, st.size, st.dev, 0, true, st.lh⟩ cache d).st with
            committing := false},
         (commit ⟨st.start, st.size, st.dev, 0, true, st.lh⟩ cache d).disk,
         (commit ⟨st.start, st.size, st.dev, 0, true, st.lh⟩ cache d).trace,
         (commit ⟨st.start, st.size, st.dev, 0, true, st.lh⟩ cache d).unpins,
         true, 1⟩) ∧
    (st.committing = false → st.outstanding - 1 ≠ 0 →
      end_op st cache d
        = some ⟨{st with outstanding := st.outstanding - 1}, d, [], [], false, 1⟩) := by
  refine ⟨?_, ?_, ?_⟩
  · intro hc
    unfold end_op
    rw [if_pos hc]
  · intro hc ho
    unfold end_op
    rw [if_neg (by simp [hc]), if_pos ho, ho]
  · intro hc ho
    unfold end_op
    rw [if_neg (by simp [hc]), if_neg ho]

/-- Witness for C7: an end_op that is not the last outstanding operation. -/
theorem end_op_spec_witness :
    end_op stEndW cacheW diskW
      = some ⟨{stEndW with outstanding := stEndW.outstanding - 1},
          diskW, [], [], false, 1⟩ :=
  (end_op_spec stEndW cacheW diskW).2.2 rfl (by decide)

/-- C8: commit with lh.n = 0 performs no disk operations and leaves the log
state, the disk, the trace and the unpin list unchanged and empty. -/
theorem commit_empty_noop (st : LogSt) (cache : Nat → Nat) (d : Disk)
    (h : st.lh.n = 0) :
    commit st cache d = ⟨st, d, [], []⟩ := commit_zero_eq st cache d h

/-- Witness for C8 at a concrete empty transaction. -/
theorem commit_empty_noop_witness :
    commit stEmptyW cacheW diskW = ⟨stEmptyW, diskW, [], []⟩ :=
  commit_empty_noop stEmptyW cacheW diskW rfl

/-- C3: the entries lh.block[0..lh.n) stay pairwise distinct with count lh.n
across any sequence of log_write calls; a repeated block number leaves lh.n
unchanged (absorption) while a new one is appended at index lh.n and lh.n is
incremented. -/
theorem log_write_absorption (st : LogSt)
    (hblk : st.lh.block.length = LOGSIZE)
    (hn : st.lh.n ≤ LOGSIZE)
    (hnd : (st.lh.block.take st.lh.n).Nodup) :
    (∀ bno st' p, log_write st bno = some (st', p) →
      (st'.lh.block.take st'.lh.n).Nodup ∧
      (st'.lh.block.take st'.lh.n).length = st'.lh.n ∧
      (bno ∈ st.lh.block.take st.lh.n →
        st'.lh.n = st.lh.n ∧
        st'.lh.block.take st'.lh.n = st.lh.block.take st.lh.n) ∧
      (bno ∉ st.lh.block.take st.lh.n →
        st'.lh.n = st.lh.n + 1 ∧
        st'.lh.block.take st'.lh.n = st.lh.block.take st.lh.n ++ [bno])) ∧
    (∀ bnos st2 pins, runLogWrites st bnos = some (st2, pins) →
      (st2.lh.block.take st2.lh.n).Nodup ∧
      (st2.lh.block.take st2.lh.n).length = st2.lh.n) := by
  constructor
  · intro bno st' p h
    obtain ⟨_, _, _, _, _, hblk1, hnlt, habs, hnew⟩ := log_write_step st bno st' p hblk h
    by_cases hmem : bno ∈ st.lh.block.take st.lh.n
    · obtain ⟨hp, hn1, hb1⟩ := habs hmem
      have htk : st'.lh.block.take st'.lh.n = st.lh.block.take st.lh.n := by
        rw [hn1, hb1]
      refine ⟨by rw [htk]; exact hnd, ?_, fun _ => ⟨hn1, htk⟩, fun hnm => absurd hmem hnm⟩
      rw [htk, List.length_take, hn1]
      omega
    · obtain ⟨hp, hn1, hb1, htk⟩ := hnew hmem
      refine ⟨by rw [htk]; exact nodup_append_singleton _ _ hnd hmem, ?_,
        fun hm => absurd hm hmem, fun _ => ⟨hn1, htk⟩⟩
      rw [htk, List.length_append, List.length_take, hn1]
      simp only [List.length_singleton]
      omega
  · intro bnos st2 pins h
    obtain ⟨hblk2, hn2, hnd2, _⟩ := runLogWrites_invariant bnos st st2 pins hblk hn hnd h
    refine ⟨hnd2, ?_⟩
    rw [List.length_take]
    omega

/-- Witness for C3: appending block 100 to an empty transaction. -/
theorem log_write_absorption_witness :
    (stC3resW.lh.block.take stC3resW.lh.n).Nodup ∧
    (stC3resW.lh.block.take stC3resW.lh.n).length = stC3resW.lh.n ∧
    (100 ∈ stTxnW.lh.block.take stTxnW.lh.n →
      stC3resW.lh.n = stTxnW.lh.n ∧
      stC3resW.lh.block.take stC3resW.lh.n = stTxnW.lh.block.take stTxnW.lh.n) ∧
    (100 ∉ stTxnW.lh.block.take stTxnW.lh.n →
      stC3resW.lh.n = stTxnW.lh.n + 1 ∧
      stC3resW.lh.block.take stC3resW.lh.n
        = stTxnW.lh.block.take stTxnW.lh.n ++ [100]) :=
  (log_write_absorption stTxnW (by decide) (by decide) (by decide)).1
    100 stC3resW true (by decide)

/-- C10: log_write pins a buffer exactly when its block number is new to the
transaction; across a whole transaction the pinned blocks are exactly the
distinct logged blocks, each pinned once; install_trans from commit unpins
each logged block exactly once while install_trans from recovery unpins
nothing. -/
theorem pin_unpin_balance :
    (∀ st bno st' p, st.lh.block.length = LOGSIZE →
      log_write st bno = some (st', p) →
      (p = true ↔ bno ∉ st.lh.block.take st.lh.n)) ∧
    (∀ st bnos st2 pins, st.lh.block.length = LOGSIZE → st.lh.n = 0 →
      runLogWrites st bnos = some (st2, pins) →
      pins = st2.lh.block.take st2.lh.n ∧ pins.Nodup) ∧
    (∀ st cache d, st.lh.n ≤ st.lh.block.length →
      (commit st cache d).unpins = st.lh.block.take st.lh.n) ∧
    (∀ start lhprev d, (recover_from_log start lhprev d).2.unpins = []) := by
  refine ⟨?_, ?_, ?_, ?_⟩
  · intro st bno st' p hblk h
    obtain ⟨_, _, _, _, _, _, _, habs, hnew⟩ := log_write_step st bno st' p hblk h
    by_cases hmem : bno ∈ st.lh.block.take st.lh.n
    · obtain ⟨hp, _, _⟩ := habs hmem
      constructor
      · intro hpt
        rw [hp] at hpt
        exact absurd hpt (by simp)
      · intro hnm
        exact absurd hmem hnm
    · obtain ⟨hp, _, _, _⟩ := hnew hmem
      exact ⟨fun _ => hmem, fun _ => hp⟩
  · intro st bnos st2 pins hblk h0 h
    obtain ⟨_, _, hnd2, htk⟩ := runLogWrites_invariant bnos st st2 pins hblk (by omega)
      (by rw [h0]; simp) h
    have hpe : st2.lh.block.take st2.lh.n = pins := by
      rw [htk, h0]
      simp
    exact ⟨hpe.symm, by rw [← hpe]; exact hnd2⟩
  · intro st cache d hlen
    exact commit_unpins_eq st cache d hlen
  · intro start lhprev d
    show (install_trans true start (read_head d lhprev).block
        (read_head d lhprev).n d).unpins = []
    exact install_trans_unpins_rec _ _ _ _

/-- Witness for C10: blocks 100, 100, 101 pin exactly 100 and 101, once
each. -/
theorem pin_unpin_balance_witness :
    ([100, 101] : List Nat) = stC10resW.lh.block.take stC10resW.lh.n ∧
    ([100, 101] : List Nat).Nodup :=
  pin_unpin_balance.2.1 stTxnW [100, 100, 101] stC10resW [100, 101]
    (by decide) rfl (by decide)

/-- C9: write_head stores only the count n and the first n entries into the
on-disk header block, leaving later entries and the remaining bytes as they
were; read_head copies only the first n entries into memory, leaving the
later in-memory entries stale; recovery installs only to targets among the
first n on-disk entries, and commit writes only logged home blocks and log
slots, so stale header entries are never installed. -/
theorem write_head_frame :
    (∀ (lhn : Nat) (lhblock : List Nat) (d : Disk), lhn ≤ lhblock.length →
      (write_head lhn lhblock d).1.hdr.n = lhn ∧
      (∀ j, j < lhn →
        (write_head lhn lhblock d).1.hdr.block.getD j 0 = lhblock.getD j 0) ∧
      (∀ j, lhn ≤ j →
        (write_head lhn lhblock d).1.hdr.block.getD j 0 = d.hdr.block.getD j 0) ∧
      (write_head lhn lhblock d).1.hdr.rest = d.hdr.rest ∧
      (write_head lhn lhblock d).1.data = d.data) ∧
    (∀ (d : Disk) (lhprev : LogHeader), d.hdr.n ≤ d.hdr.block.length →
      (read_head d lhprev).n = d.hdr.n ∧
      (∀ j, j < d.hdr.n →
        (read_head d lhprev).block.getD j 0 = d.hdr.block.getD j 0) ∧
      (∀ j, d.hdr.n ≤ j →
        (read_head d lhprev).block.getD j 0 = lhprev.block.getD j 0)) ∧
    (∀ (start : Nat) (lhprev : LogHeader) (d : Disk), d.hdr.n ≤ d.hdr.block.length →
      ∀ a v, WEvent.wdata a v ∈ (recover_from_log start lhprev d).2.trace →
        a ∈ d.hdr.block.take d.hdr.n) ∧
    (∀ (st : LogSt) (cache : Nat → Nat) (d : Disk), st.lh.n ≤ st.lh.block.length →
      ∀ a v, WEvent.wdata a v ∈ (commit st cache d).trace →
        a ∈ st.lh.block.take st.lh.n ∨ ∃ j, j < st.lh.n ∧ a = st.start + j + 1) := by
  refine ⟨?_, ?_, ?_, ?_⟩
  · intro lhn lhblock d hlen
    rw [write_head_fst]
    refine ⟨rfl, ?_, ?_, rfl, rfl⟩
    · intro j hj
      exact copyFirst_getD_lt lhn lhblock d.hdr.block j hj (by omega)
    · intro j hj
      exact copyFirst_getD_ge lhn lhblock d.hdr.block j hj hlen
  · intro d lhprev hlen
    rw [read_head_eq]
    refine ⟨rfl, ?_, ?_⟩
    · intro j hj
      exact copyFirst_getD_lt d.hdr.n d.hdr.block lhprev.block j hj (by omega)
    · intro j hj
      exact copyFirst_getD_ge d.hdr.n d.hdr.block lhprev.block j hj hlen
  · intro start lhprev d hlen a v hmem
    have hsplit : (recover_from_log start lhprev d).2.trace
        = (install_trans true start (read_head d lhprev).block
            (read_head d lhprev).n d).trace
          ++ [(write_head 0 (read_head d lhprev).block
                (install_trans true start (read_head d lhprev).block
                  (read_head d lhprev).n d).disk).2] := rfl
    rw [hsplit, List.mem_append] at hmem
    rcases hmem with hmem | hmem
    · obtain ⟨t, ht, ha⟩ := installTransFrom_target_mem true start
        (read_head d lhprev).block (read_head d lhprev).n 0 d a v hmem
      have hn : (read_head d lhprev).n = d.hdr.n := by rw [read_head_eq]
      rw [hn] at ht
      have hb : (read_head d lhprev).block.getD (0 + t) 0 = d.hdr.block.getD t 0 := by
        rw [read_head_eq]
        dsimp only
        rw [Nat.zero_add]
        exact copyFirst_getD_lt d.hdr.n d.hdr.block lhprev.block t ht (by omega)
      rw [ha, hb]
      exact getD_mem_take d.hdr.block d.hdr.n t ht hlen
    · rw [write_head_snd] at hmem
      simp at hmem
  · intro st cache d hlen a v hmem
    by_cases hn : 0 < st.lh.n
    · rw [commit_pos_eq st cache d hn] at hmem
      dsimp only at hmem
      rw [List.mem_append, List.mem_cons] at hmem
      rcases hmem with hmem | hmem | hmem
      · rw [write_log_trace, List.mem_map] at hmem
        obtain ⟨t, ht, heq⟩ := hmem
        rw [List.mem_range] at ht
        right
        refine ⟨t, ht, ?_⟩
        have := congrArg (fun e => match e with
          | WEvent.wdata x _ => x
          | WEvent.whead _ => 0) heq
        simpa using this.symm
      · exact absurd hmem.symm (by rw [write_head_snd]; simp)
      · rw [List.mem_append] at hmem
        rcases hmem with hmem | hmem
        · obtain ⟨t, ht, ha⟩ := installTransFrom_target_mem false st.start
            st.lh.block st.lh.n 0 _ a v hmem
          left
          rw [ha, Nat.zero_add]
          exact getD_mem_take st.lh.block st.lh.n t ht hlen
        · rw [List.mem_singleton] at hmem
          exact absurd hmem (by rw [write_head_snd]; simp)
    · have h0 : st.lh.n = 0 := by omega
      rw [commit_zero_eq st cache d h0] at hmem
      simp at hmem

/-- Witness for C9: write_head with one entry on the concrete disk. -/
theorem write_head_frame_witness :
    (write_head 1 blkW diskW).1.hdr.n = 1 ∧
    (∀ j, j < 1 → (write_head 1 blkW diskW).1.hdr.block.getD j 0 = blkW.getD j 0) ∧
    (∀ j, 1 ≤ j →
      (write_head 1 blkW diskW).1.hdr.block.getD j 0 = diskW.hdr.block.getD j 0) ∧
    (write_head 1 blkW diskW).1.hdr.rest = diskW.hdr.rest ∧
    (write_head 1 blkW diskW).1.data = diskW.data :=
  write_head_frame.1 1 blkW diskW (by decide)

/-- C4: with lh.n > 0, commit writes, in order, the n log slots from the
cache, then the commit-point header with count lh.n, then the n home blocks,
then the cleared header, and it ends with lh.n = 0. -/
theorem commit_write_ordering (st : LogSt) (cache : Nat → Nat) (d : Disk)
    (hn : 0 < st.lh.n)
    (hd : ∀ i j, i < st.lh.n → j < st.lh.n →
        st.lh.block.getD i 0 ≠ st.start + j + 1) :
    (commit st cache d).trace
      = ((List.range st.lh.n).map fun i =>
            WEvent.wdata (st.start + i + 1) (cache (st.lh.block.getD i 0)))
        ++ WEvent.whead ⟨st.lh.n, copyFirst st.lh.n st.lh.block d.hdr.block, d.hdr.rest⟩
          :: (((List.range st.lh.n).map fun i =>
                WEvent.wdata (st.lh.block.getD i 0) (cache (st.lh.block.getD i 0)))
            ++ [WEvent.whead ⟨0, copyFirst st.lh.n st.lh.block d.hdr.block, d.hdr.rest⟩])
    ∧ (commit st cache d).st = {st with lh := ⟨0, st.lh.block⟩} :=
  ⟨commit_trace_eq st cache d hn hd, commit_st_eq st cache d hn⟩

/-- Witness for C4: committing the one-block transaction of stC1W. -/
theorem commit_write_ordering_witness :
    (commit stC1W cacheW diskW).trace
      = ((List.range stC1W.lh.n).map fun i =>
            WEvent.wdata (stC1W.start + i + 1) (cacheW (stC1W.lh.block.getD i 0)))
        ++ WEvent.whead ⟨stC1W.lh.n, copyFirst stC1W.lh.n stC1W.lh.block diskW.hdr.block,
              diskW.hdr.rest⟩
          :: (((List.range stC1W.lh.n).map fun i =>
                WEvent.wdata (stC1W.lh.block.getD i 0) (cacheW (stC1W.lh.block.getD i 0)))
            ++ [WEvent.whead ⟨0, copyFirst stC1W.lh.n stC1W.lh.block diskW.hdr.block,
                  diskW.hdr.rest⟩])
    ∧ (commit stC1W cacheW diskW).st = {stC1W with lh := ⟨0, stC1W.lh.block⟩} :=
  commit_write_ordering stC1W cacheW diskW (by decide)
    (by
      intro i j hi hj
      have hn1 : stC1W.lh.n = 1 := rfl
      rw [hn1] at hi hj
      have hi0 : i = 0 := by omega
      have hj0 : j = 0 := by omega
      subst hi0
      subst hj0
      decide)

/-! Crash-safety lemmas: recovery after a crash, with a possible second crash
inside recovery itself. -/

theorem recover_crash_clean (start : Nat) (lhp lhq : LogHeader) (d : Disk) (jj : Nat)
    (h : d.hdr.n = 0) (hj : jj ≤ ((recover_from_log start lhp d).2.trace).length) :
    (recover_from_log start lhq
      (applyEvents d ((recover_from_log start lhp d).2.trace.take jj))).2.disk = d := by
  obtain ⟨hdisk, htrace, _⟩ := recover_empty start lhp d h
  rw [htrace] at hj ⊢
  have hj1 : jj = 0 ∨ jj = 1 := by
    simp only [List.length_singleton] at hj
    omega
  have hdkj : applyEvents d ([WEvent.whead d.hdr].take jj) = d := by
    rcases hj1 with hj0 | hj0
    · rw [hj0]
      rfl
    · rw [hj0]
      show applyEvent d (WEvent.whead d.hdr) = d
      rfl
  rw [hdkj]
  exact (recover_empty start lhq d h).1

theorem recover_crash_committed (start n : Nat) (block : List Nat) (cache : Nat → Nat)
    (lhp lhq : LogHeader) (e : Disk) (jj i : Nat)
    (hdisj : ∀ a b, a < n → b < n → block.getD a 0 ≠ start + b + 1)
    (hnd : (block.take n).Nodup)
    (hm : e.hdr.n = n)
    (helen : n ≤ e.hdr.block.length)
    (hetake : e.hdr.block.take n = block.take n)
    (hslots : ∀ t, t < n → e.data (start + t + 1) = cache (block.getD t 0))
    (hj : jj ≤ ((recover_from_log start lhp e).2.trace).length)
    (hi : i < n) :
    (recover_from_log start lhq
      (applyEvents e ((recover_from_log start lhp e).2.trace.take jj))).2.disk.data
        (block.getD i 0) = cache (block.getD i 0) := by
  have hgetD : ∀ t, t < n → e.hdr.block.getD t 0 = block.getD t 0 := by
    intro t ht
    rw [← getD_take_of_lt e.hdr.block n t ht, hetake, getD_take_of_lt block n t ht]
  have hedisj : ∀ a b, a < n → b < n → e.hdr.block.getD a 0 ≠ start + b + 1 := by
    intro a b ha hb2
    rw [hgetD a ha]
    exact hdisj a b ha hb2
  have hend : (e.hdr.block.take n).Nodup := by
    rw [hetake]
    exact hnd
  obtain ⟨hRtr, hRhdr, hRun, hRhomes⟩ := recover_nonempty start lhp e n hm helen hedisj
  have hIlen : ((List.range n).map fun t =>
      WEvent.wdata (e.hdr.block.getD t 0) (e.data (start + t + 1))).length = n := by
    simp
  have hRlen : ((recover_from_log start lhp e).2.trace).length = n + 1 := by
    rw [hRtr]
    simp
  rw [hRlen] at hj
  by_cases hjn : jj ≤ n
  · have htk : (recover_from_log start lhp e).2.trace.take jj
        = (List.range jj).map (fun t =>
            WEvent.wdata (e.hdr.block.getD t 0) (e.data (start + t + 1))) := by
      rw [hRtr, List.take_append_of_le_length (by rw [hIlen]; exact hjn),
        ← List.map_take, List.take_range, min_eq_left hjn]
    set ekj := applyEvents e ((recover_from_log start lhp e).2.trace.take jj) with hekj
    have hekjhdr : ekj.hdr = e.hdr := by
      rw [hekj, htk]
      apply hdr_of_data_events
      intro x hx
      rw [List.mem_map] at hx
      obtain ⟨t, _, rfl⟩ := hx
      rfl
    have hekjslots : ∀ t, t < n → ekj.data (start + t + 1) = cache (block.getD t 0) := by
      intro t ht
      have hun : (applyEvents e ((List.range jj).map (fun u =>
          WEvent.wdata (e.hdr.block.getD u 0) (e.data (start + u + 1))))).data (start + t + 1)
          = e.data (start + t + 1) := by
        apply data_of_untouched
        intro x hx
        rw [List.mem_map] at hx
        obtain ⟨u, hu, rfl⟩ := hx
        rw [List.mem_range] at hu
        simp only [wtarget, ne_eq, Option.some.injEq]
        intro hh
        rw [hgetD u (by omega)] at hh
        exact hdisj u t (by omega) ht hh
      rw [hekj, htk, hun]
      exact hslots t ht
    obtain ⟨_, _, _, hfinhomes⟩ := recover_nonempty start lhq ekj n
      (by rw [hekjhdr]; exact hm)
      (by rw [hekjhdr]; exact helen)
      (by intro a b ha hb2; rw [hekjhdr]; exact hedisj a b ha hb2)
    have h4 := hfinhomes (by rw [hekjhdr]; exact hend) i hi
    rw [hekjhdr, hgetD i hi] at h4
    rw [h4]
    exact hekjslots i hi
  · have hjn1 : jj = n + 1 := by omega
    have htk : (recover_from_log start lhp e).2.trace.take jj
        = (recover_from_log start lhp e).2.trace := by
      rw [hjn1, ← hRlen]
      exact List.take_length _
    rw [htk, ← recover_disk_eq_apply]
    have hekjn : (recover_from_log start lhp e).2.disk.hdr.n = 0 := by
      rw [hRhdr]
    rw [(recover_empty start lhq _ hekjn).1]
    have h4 := hRhomes hend i hi
    rw [hgetD i hi] at h4
    rw [h4]
    exact hslots i hi

/-- C1: crash-point atomicity.  For a transaction of n blocks committed from
a clean on-disk header, crash after any prefix of k commit writes, then crash
again after any prefix of j writes of the recovery that boot runs, then
recover completely: every home block of the transaction holds its old
contents if the crash preceded the commit-point header write (k ≤ n), and its
committed contents if the crash followed it (k > n) — never a mix. -/
theorem crash_recovery_atomic
    (start size n : Nat) (block : List Nat) (cache : Nat → Nat)
    (d0 dk dkj dfin : Disk) (lhp lhq : LogHeader) (T R : List WEvent) (k j : Nat)
    (hn : 0 < n) (hL : n ≤ LOGSIZE) (hlen : block.length = LOGSIZE) (hsz : n < size)
    (hout : ∀ b ∈ block.take n, b < start ∨ start + size ≤ b)
    (hnd : (block.take n).Nodup)
    (h0 : d0.hdr.n = 0) (hdlen : d0.hdr.block.length = LOGSIZE)
    (hT : T = (commit ⟨start, size, 0, 0, true, ⟨n, block⟩⟩ cache d0).trace)
    (hk : k ≤ T.length)
    (hdk : dk = applyEvents d0 (T.take k))
    (hR : R = (recover_from_log start lhp dk).2.trace)
    (hj : j ≤ R.length)
    (hdkj : dkj = applyEvents dk (R.take j))
    (hdfin : dfin = (recover_from_log start lhq dkj).2.disk) :
    (k ≤ n → ∀ i, i < n → dfin.data (block.getD i 0) = d0.data (block.getD i 0)) ∧
    (n < k → ∀ i, i < n → dfin.data (block.getD i 0) = cache (block.getD i 0)) := by
  have hbl : n ≤ block.length := by omega
  have hd0l : n ≤ d0.hdr.block.length := by omega
  have hdisj : ∀ a b, a < n → b < n → block.getD a 0 ≠ start + b + 1 := by
    intro a b ha hb2
    have hmem := getD_mem_take block n a ha hbl
    rcases hout _ hmem with hlt | hge
    · omega
    · omega
  have hTform : T
      = ((List.range n).map fun t =>
            WEvent.wdata (start + t + 1) (cache (block.getD t 0)))
        ++ WEvent.whead ⟨n, copyFirst n block d0.hdr.block, d0.hdr.rest⟩
          :: (((List.range n).map fun t =>
                WEvent.wdata (block.getD t 0) (cache (block.getD t 0)))
            ++ [WEvent.whead ⟨0, copyFirst n block d0.hdr.block, d0.hdr.rest⟩]) := by
    rw [hT]
    exact commit_trace_eq ⟨start, size, 0, 0, true, ⟨n, block⟩⟩ cache d0 hn hdisj
  constructor
  · -- crash before the commit point: homes untouched, recovery is a no-op
    intro hkn i hi
    have htk : T.take k = (List.range k).map (fun t =>
        WEvent.wdata (start + t + 1) (cache (block.getD t 0))) := by
      rw [hTform,
        List.take_append_of_le_length (by simp only [List.length_map, List.length_range]; omega),
        ← List.map_take, List.take_range, min_eq_left hkn]
    have hdkhdr : dk.hdr = d0.hdr := by
      rw [hdk, htk]
      apply hdr_of_data_events
      intro x hx
      rw [List.mem_map] at hx
      obtain ⟨t, _, rfl⟩ := hx
      rfl
    have hdkn : dk.hdr.n = 0 := by
      rw [hdkhdr]
      exact h0
    have hdkdata : dk.data (block.getD i 0) = d0.data (block.getD i 0) := by
      rw [hdk, htk]
      apply data_of_untouched
      intro x hx
      rw [List.mem_map] at hx
      obtain ⟨t, ht, rfl⟩ := hx
      rw [List.mem_range] at ht
      simp only [wtarget, ne_eq, Option.some.injEq]
      intro hh
      exact hdisj i t hi (by omega) hh.symm
    have hfin : dfin = dk := by
      rw [hdfin, hdkj, hR]
      exact recover_crash_clean start lhp lhq dk j hdkn (by rw [← hR]; exact hj)
    rw [hfin, hdkdata]
  · -- crash after the commit point: recovery installs all committed blocks
    intro hkn i hi
    have hTlen : T.length = 2 * n + 2 := by
      rw [hTform]
      simp only [List.length_append, List.length_cons, List.length_map,
        List.length_range, List.length_singleton, List.length_nil]
      omega
    have hk2 : k ≤ 2 * n + 2 := by
      rw [← hTlen]
      exact hk
    have hsplit : T.take k
        = ((List.range n).map fun t =>
              WEvent.wdata (start + t + 1) (cache (block.getD t 0)))
          ++ (WEvent.whead ⟨n, copyFirst n block d0.hdr.block, d0.hdr.rest⟩
            :: ((((List.range n).map fun t =>
                  WEvent.wdata (block.getD t 0) (cache (block.getD t 0)))
              ++ [WEvent.whead ⟨0, copyFirst n block d0.hdr.block, d0.hdr.rest⟩]).take
                (k - n - 1))) := by
      rw [hTform, List.take_append_eq_append_take]
      congr 1
      · apply List.take_of_length_le
        simp only [List.length_map, List.length_range]
        omega
      · have hLlen : ((List.range n).map fun t =>
            WEvent.wdata (start + t + 1) (cache (block.getD t 0))).length = n := by
          simp
        rw [hLlen]
        have hkn2 : k - n = (k - n - 1) + 1 := by omega
        rw [hkn2, List.take_succ_cons]
        simp only [Nat.add_sub_cancel]
    have hdk2 : dk = applyEvents
        (applyEvents (applyEvents d0 ((List.range n).map fun t =>
            WEvent.wdata (start + t + 1) (cache (block.getD t 0))))
          [WEvent.whead ⟨n, copyFirst n block d0.hdr.block, d0.hdr.rest⟩])
        ((((List.range n).map fun t =>
              WEvent.wdata (block.getD t 0) (cache (block.getD t 0)))
          ++ [WEvent.whead ⟨0, copyFirst n block d0.hdr.block, d0.hdr.rest⟩]).take
            (k - n - 1)) := by
      rw [hdk, hsplit, List.append_cons, applyEvents_append, applyEvents_append]
    have hdLslots : ∀ t, t < n →
        (applyEvents d0 ((List.range n).map fun u =>
          WEvent.wdata (start + u + 1) (cache (block.getD u 0)))).data (start + t + 1)
        = cache (block.getD t 0) := by
      intro t ht
      exact applyEvents_map_data_at n d0 (fun u => start + u + 1)
        (fun u => cache (block.getD u 0)) t ht (fun u _ hf => by
          have hf' : start + u + 1 = start + t + 1 := hf
          omega)
    have hinjhb : ∀ t0, t0 < n → ∀ u, u < n →
        block.getD u 0 = block.getD t0 0 → u = t0 := by
      intro t0 ht0 u hu hf
      have h1 : (block.take n).getD u 0 = (block.take n).getD t0 0 := by
        rw [getD_take_of_lt _ _ _ hu, getD_take_of_lt _ _ _ ht0]
        exact hf
      exact nodup_getD_inj _ hnd u t0 (by rw [List.length_take]; omega)
        (by rw [List.length_take]; omega) h1
    by_cases hrn : k - n - 1 ≤ n
    · -- during installation or just after the commit-point header write
      have htkIZ : ((((List.range n).map fun t =>
            WEvent.wdata (block.getD t 0) (cache (block.getD t 0)))
          ++ [WEvent.whead ⟨0, copyFirst n block d0.hdr.block, d0.hdr.rest⟩]).take
            (k - n - 1))
          = (List.range (k - n - 1)).map (fun t =>
              WEvent.wdata (block.getD t 0) (cache (block.getD t 0))) := by
        rw [List.take_append_of_le_length
            (by simp only [List.length_map, List.length_range]; omega),
          ← List.map_take, List.take_range, min_eq_left hrn]
      have hdkhdr : dk.hdr = ⟨n, copyFirst n block d0.hdr.block, d0.hdr.rest⟩ := by
        rw [hdk2, htkIZ]
        have := hdr_of_data_events ((List.range (k - n - 1)).map (fun t =>
            WEvent.wdata (block.getD t 0) (cache (block.getD t 0))))
          (applyEvents (applyEvents d0 ((List.range n).map fun t =>
              WEvent.wdata (start + t + 1) (cache (block.getD t 0))))
            [WEvent.whead ⟨n, copyFirst n block d0.hdr.block, d0.hdr.rest⟩])
          (by
            intro x hx
            rw [List.mem_map] at hx
            obtain ⟨t, _, rfl⟩ := hx
            rfl)
        rw [this]
        rfl
      have hdkslots : ∀ t, t < n → dk.data (start + t + 1) = cache (block.getD t 0) := by
        intro t ht
        rw [hdk2, htkIZ]
        have hun := data_of_untouched ((List.range (k - n - 1)).map (fun u =>
            WEvent.wdata (block.getD u 0) (cache (block.getD u 0))))
          (applyEvents (applyEvents d0 ((List.range n).map fun u =>
              WEvent.wdata (start + u + 1) (cache (block.getD u 0))))
            [WEvent.whead ⟨n, copyFirst n block d0.hdr.block, d0.hdr.rest⟩])
          (start + t + 1)
          (by
            intro x hx
            rw [List.mem_map] at hx
            obtain ⟨u, hu, rfl⟩ := hx
            rw [List.mem_range] at hu
            simp only [wtarget, ne_eq, Option.some.injEq]
            intro hh
            exact hdisj u t (by omega) ht hh)
        rw [hun]
        show (applyEvents d0 ((List.range n).map fun u =>
          WEvent.wdata (start + u + 1) (cache (block.getD u 0)))).data (start + t + 1) = _
        exact hdLslots t ht
      rw [hdfin, hdkj, hR]
      exact recover_crash_committed start n block cache lhp lhq dk j i hdisj hnd
        (by rw [hdkhdr])
        (by
          rw [hdkhdr]
          show n ≤ (copyFirst n block d0.hdr.block).length
          rw [copyFirst_length n block d0.hdr.block hbl hd0l]
          omega)
        (by
          rw [hdkhdr]
          exact copyFirst_take n block d0.hdr.block hbl)
        hdkslots (by rw [← hR]; exact hj) hi
    · -- after the header-clear write: commit fully done, recovery is a no-op
      have hrn1 : k - n - 1 = n + 1 := by omega
      have htkIZ : ((((List.range n).map fun t =>
            WEvent.wdata (block.getD t 0) (cache (block.getD t 0)))
          ++ [WEvent.whead ⟨0, copyFirst n block d0.hdr.block, d0.hdr.rest⟩]).take
            (k - n - 1))
          = (((List.range n).map fun t =>
                WEvent.wdata (block.getD t 0) (cache (block.getD t 0)))
            ++ [WEvent.whead ⟨0, copyFirst n block d0.hdr.block, d0.hdr.rest⟩]) := by
        rw [hrn1]
        apply List.take_of_length_le
        simp
      have hdk3 : dk = applyEvent
          (applyEvents (applyEvents (applyEvents d0 ((List.range n).map fun t =>
              WEvent.wdata (start + t + 1) (cache (block.getD t 0))))
            [WEvent.whead ⟨n, copyFirst n block d0.hdr.block, d0.hdr.rest⟩])
            ((List.range n).map fun t =>
              WEvent.wdata (block.getD t 0) (cache (block.getD t 0))))
          (WEvent.whead ⟨0, copyFirst n block d0.hdr.block, d0.hdr.rest⟩) := by
        rw [hdk2, htkIZ, applyEvents_append]
        rfl
      have hdkn : dk.hdr.n = 0 := by
        rw [hdk3]
        rfl
      have hdkdata : dk.data (block.getD i 0) = cache (block.getD i 0) := by
        rw [hdk3]
        show (applyEvents (applyEvents (applyEvents d0 ((List.range n).map fun t =>
            WEvent.wdata (start + t + 1) (cache (block.getD t 0))))
          [WEvent.whead ⟨n, copyFirst n block d0.hdr.block, d0.hdr.rest⟩])
          ((List.range n).map fun t =>
            WEvent.wdata (block.getD t 0) (cache (block.getD t 0)))).data
              (block.getD i 0) = _
        exact applyEvents_map_data_at n _ (fun t => block.getD t 0)
          (fun t => cache (block.getD t 0)) i hi (fun u hu hf => hinjhb i hi u hu hf)
      have hfin : dfin = dk := by
        rw [hdfin, hdkj, hR]
        exact recover_crash_clean start lhp lhq dk j hdkn (by rw [← hR]; exact hj)
      rw [hfin, hdkdata]

/-- Witness for C1: the one-block transaction of stC1W, crashed after all
four commit writes and after the single recovery write, recovers to the
committed contents. -/
theorem crash_recovery_atomic_witness :
    (4 ≤ 1 → ∀ i, i < 1 → dfinW.data (blkW.getD i 0) = diskW.data (blkW.getD i 0)) ∧
    (1 < 4 → ∀ i, i < 1 → dfinW.data (blkW.getD i 0) = cacheW (blkW.getD i 0)) :=
  crash_recovery_atomic 2 31 1 blkW cacheW diskW dkW dkjW dfinW lhW lhW tW rW 4 1
    (by decide) (by decide) (by decide) (by decide) (by decide) (by decide)
    rfl (by decide) rfl (by decide) rfl rfl (by decide) rfl rfl

end XvLog
